import Mathlib

/-!
Verification of the board model of the nrk-former-solver repository
(src/Rust/src/board.rs), a 7×9 colored-grid puzzle: a move removes a
maximal 4-connected same-color group and the remaining cells fall under
per-column gravity.

The Rust code is shallowly embedded: `Vec<Point>` becomes `List Point`,
in-place mutation becomes explicit state passing, fallible operations
return `Except`, and the panic of the initial cell read of `make_move`
(an out-of-range linear index) is modelled with `Option` (`none` =
panic).  The Rust code has a second panic path, out-of-range neighbor
reads inside `recurse_neighbors`; it is reachable only from out-of-grid
seed coordinates whose own linear index is in range, it is not modelled
(see `recurse_neighbors` below), and every theorem that evaluates the
flood fill therefore stays on in-grid coordinates of 63-cell arrays,
where no neighbor index can leave the array.  Grid constants
`Board::WIDTH = 7` and `Board::HEIGHT = 9` appear as the literals 7 and
9 (63 = 7*9 cells).
-/

/-- `Point` (board.rs): one of the four colors or `Empty`.
`repr(u8)` gives the discriminants 0,1,2,3,4 in declaration order. -/
inductive Point where
  | Orange
  | Pink
  | Blue
  | Green
  | Empty
deriving DecidableEq, Repr

/-- `Coordinate` (board.rs): a pair of zero-based grid indices. -/
structure Coordinate where
  x : Nat
  y : Nat
deriving DecidableEq, Repr

/-- `Board` (board.rs): the flattened cell array plus the move history. -/
structure Board where
  data : List Point
  moves : List Coordinate
deriving DecidableEq, Repr

/-- `BoardError` (board.rs). -/
inductive BoardError where
  | InvalidBoardStringLength
  | InvalidMove
deriving DecidableEq, Repr

namespace Board

/-- `Board::get_index` (board.rs): the column-major linear index
`(x * Self::HEIGHT) + y` with `HEIGHT = 9`. -/
def get_index (x y : Nat) : Nat := x * 9 + y

/-- The symbol table of `Board::new` (board.rs): `'o'`, `'p'`, `'g'`, `'b'`
map to their colors, every other character to `Empty`
(`char_to_point.get(&c).copied().unwrap_or(Point::Empty)`). -/
def char_to_point (c : Char) : Point :=
  if c = 'o' then Point.Orange
  else if c = 'p' then Point.Pink
  else if c = 'g' then Point.Green
  else if c = 'b' then Point.Blue
  else Point.Empty

/-- `Board::new` (board.rs): rejects inputs whose length is not
`HEIGHT * WIDTH = 63`, otherwise maps each symbol through the table
(one cell per character of `s.chars()`) and starts with an empty move
history.  The Rust input is a `&str`, modelled as the sequence of its
characters; `s.len()` is its UTF-8 *byte* count, the sum of
`Char.utf8Size` (= Rust `char::len_utf8`) over the characters, which
differs from the character count on non-ASCII input. -/
def new (s : List Char) : Except BoardError Board :=
  if (s.map Char.utf8Size).sum ≠ 63 then
    Except.error BoardError.InvalidBoardStringLength
  else
    Except.ok { data := s.map char_to_point, moves := [] }

/-- `Board::get_memo_key` (board.rs): the raw-byte view of the cell array,
one `repr(u8)` discriminant byte per cell. -/
def pointDiscriminant : Point → Nat
  | Point.Orange => 0
  | Point.Pink => 1
  | Point.Blue => 2
  | Point.Green => 3
  | Point.Empty => 4

/-- `Board::get_memo_key` (board.rs): `data` reinterpreted as one byte per
cell (the enum discriminant), in cell order. -/
def get_memo_key (b : Board) : List Nat := b.data.map pointDiscriminant

/-- `Board::is_solved` (board.rs): every cell is empty. -/
def is_solved (b : Board) : Bool := b.data.all (fun p => p = Point.Empty)

/-- The neighbor candidates built at the top of `Board::recurse_neighbors`
(board.rs), in push order: left (if `x > 0`), right (if `x < WIDTH - 1`),
up (if `y > 0`), down (if `y < HEIGHT - 1`). -/
def neighborsOf (x y : Nat) : List Coordinate :=
  (if 0 < x then [⟨x - 1, y⟩] else []) ++
  (if x < 6 then [⟨x + 1, y⟩] else []) ++
  (if 0 < y then [⟨x, y - 1⟩] else []) ++
  (if y < 8 then [⟨x, y + 1⟩] else [])

/-- `Board::recurse_neighbors` (board.rs), written as the equivalent
explicit-worklist traversal of the same visited-set flood fill: pop a
candidate, skip it unless its cell holds `color`
(`self.data[Board::get_index(nx, ny)] == color`) and it is not yet in the
group (`group.insert` returning `false`), otherwise add it and queue its
neighbors.  The `group` HashSet is modelled as a duplicate-free list.
The `fuel` argument only makes the recursion structural: every call made
below supplies more fuel than the traversal can consume (at most five
steps per insertable coordinate, and on a 63-cell board every insertable
coordinate has `x * 9 + y < 63`), so the fuel-exhausted branch is
unreachable there and the function computes exactly the visited set of
the Rust recursion.  Caveat: the Rust color check
`self.data[Board::get_index(nx, ny)] == color` panics when the
neighbor's linear index is outside the array, while the `get?` check
here treats that neighbor as a color mismatch and skips it.  The panic
is reachable only from an out-of-grid seed whose own index is in range
(neighbors of in-grid cells are in-grid, so on a 63-cell array an
in-grid seed keeps every read in range); every theorem below that
evaluates the flood fill therefore restricts itself to in-grid seeds on
63-cell arrays, where this definition agrees with the code step for
step. -/
def recurse_neighbors (b : Board) (color : Point) :
    Nat → List Coordinate → List Coordinate → List Coordinate
  | 0, _, group => group
  | _ + 1, [], group => group
  | fuel + 1, n :: rest, group =>
    if b.data.get? (get_index n.x n.y) = some color then
      if n ∈ group then
        recurse_neighbors b color fuel rest group
      else
        recurse_neighbors b color fuel (neighborsOf n.x n.y ++ rest) (n :: group)
    else
      recurse_neighbors b color fuel rest group

/-- `Board::get_group` (board.rs): the group starts as `{(x, y)}` and the
flood fill runs from `(x, y)` with the color read at `(x, y)`. -/
def get_group (b : Board) (x y : Nat) : List Coordinate :=
  recurse_neighbors b (b.data.getD (get_index x y) Point.Empty) 20000
    (neighborsOf x y) [⟨x, y⟩]

/-- The first loop of `Board::apply_gravity` (board.rs) on one column,
iterating `i` downward from `HEIGHT - 1` (the `Nat` argument is the
number of indices still to process, so `i` ranges over
`counter - 1, …, 0`): a non-empty cell is copied to `insert_at`, which
then decrements (it is an `i32` in the source and can reach `-1`). -/
def gravityPass : List Point → Int → Nat → List Point × Int
  | col, insert_at, 0 => (col, insert_at)
  | col, insert_at, i + 1 =>
    if col.getD i Point.Empty = Point.Empty then
      gravityPass col insert_at i
    else
      gravityPass (col.set insert_at.toNat (col.getD i Point.Empty))
        (insert_at - 1) i

/-- The second loop of `Board::apply_gravity` (board.rs) on one column:
fill indices `insert_at, …, 0` (the `Nat` argument is `insert_at + 1`)
with `Empty`. -/
def gravityFill : List Point → Nat → List Point
  | col, 0 => col
  | col, i + 1 => gravityFill (col.set i Point.Empty) i

/-- `Board::apply_gravity` (board.rs) restricted to one column slice:
both loops, with `insert_at` starting at `HEIGHT - 1 = 8`. -/
def gravityColumn (col : List Point) : List Point :=
  let r := gravityPass col 8 9
  gravityFill r.1 (r.2 + 1).toNat

/-- `Board::apply_gravity` (board.rs): each of the 7 disjoint column
slices `data[x*9 .. x*9+9]` is compacted independently in place; the
in-place update of disjoint slices is modelled by reassembling the
columns. -/
def apply_gravity (data : List Point) : List Point :=
  (List.range 7).flatMap (fun x => gravityColumn ((data.drop (x * 9)).take 9))

/-- The group-erasing loop of `Board::make_move` (board.rs):
`self.data[Board::get_index(gx, gy)] = Point::Empty` for every group
member. -/
def eraseGroup (data : List Point) (group : List Coordinate) : List Point :=
  group.foldl (fun d c => d.set (get_index c.x c.y) Point.Empty) data

/-- `Board::make_move` (board.rs).  The result is the returned
`Result<(), BoardError>` together with the post-call state of the
(`&mut self`) board; `none` models the panic of the initial read
`self.data[Board::get_index(x, y)]` when the linear index is outside the
cell array.  On an empty cell the function returns `Err(InvalidMove)`
before any mutation; otherwise it erases the group, applies gravity and
appends `(x, y)` to the move history.  For an out-of-grid `(x, y)` whose
linear index is in range the success branch inherits the unmodelled
panic path of `recurse_neighbors` (see its caveat), so theorems about
the success branch restrict to in-grid coordinates on 63-cell arrays. -/
def make_move (b : Board) (x y : Nat) :
    Option (Except BoardError Unit × Board) :=
  match b.data.get? (get_index x y) with
  | none => none
  | some p =>
    if p = Point.Empty then
      some (Except.error BoardError.InvalidMove, b)
    else
      let group := get_group b x y
      let data1 := eraseGroup b.data group
      some (Except.ok (),
        { data := apply_gravity data1, moves := b.moves ++ [⟨x, y⟩] })

/-- The cell scan order of `Board::get_distinct_moves` (board.rs):
`for x in 0..WIDTH { for y in 0..HEIGHT { … } }`, i.e. column-major. -/
def scanCoords : List Coordinate :=
  (List.range 7).flatMap (fun x => (List.range 9).map (fun y => ⟨x, y⟩))

/-- `Board::get_distinct_moves` (board.rs): scan all cells in column-major
order; skip empty cells; `visited.insert(Coordinate { x, y })` inserts
only the scanned cell (not the group members), and on a fresh insert the
scanned coordinate is paired with its group's size.  The accumulator is
(result list, visited set). -/
def get_distinct_moves (b : Board) : List (Coordinate × Nat) :=
  (scanCoords.foldl
    (fun (acc : List (Coordinate × Nat) × List Coordinate) c =>
      if b.data.getD (get_index c.x c.y) Point.Empty = Point.Empty then acc
      else if c ∈ acc.2 then acc
      else (acc.1 ++ [(c, (get_group b c.x c.y).length)], c :: acc.2))
    ([], [])).1

/-- `Board::get_distinct_moves_after_move` (board.rs): clone, apply the
move, and count the entries of `get_distinct_moves` afterwards.  The Rust
code panics (`expect`) if the move is invalid or out of range; that
branch, unreachable from `get_prioritized_moves`, returns 0 here. -/
def get_distinct_moves_after_move (b : Board) (x y : Nat) : Nat :=
  match make_move b x y with
  | some (Except.ok _, b2) => (get_distinct_moves b2).length
  | _ => 0

/-- The comparator of `Board::get_prioritized_moves` (board.rs),
`a.2.cmp(&b.2).then(b.1.cmp(&a.1))`, as the total preorder "`a` need not
come after `b`": strictly smaller post-move count, or equal post-move
count and at least as large a pre-move group size. -/
def moveLe (a b : Coordinate × Nat × Nat) : Bool :=
  a.2.2 < b.2.2 || (a.2.2 = b.2.2 && b.2.1 ≤ a.2.1)

/-- Stable insertion into a sorted list: `a` goes in front of the first
element it need not come after.  Together with `sortStable` this models
`itertools::sorted_by` (a stable sort); a stable sort's output is
uniquely determined by the total preorder, so any stable sort computes
the same function. -/
def insertSorted (le : α → α → Bool) (a : α) : List α → List α
  | [] => [a]
  | b :: t => if le a b then a :: b :: t else b :: insertSorted le a t

/-- Stable sort (insertion sort), modelling `itertools::sorted_by`. -/
def sortStable (le : α → α → Bool) (l : List α) : List α :=
  l.foldr (insertSorted le) []

/-- `Board::get_prioritized_moves` (board.rs): decorate every entry of
`get_distinct_moves` with the one-ply lookahead count, stably sort by the
comparator, and keep the coordinates. -/
def get_prioritized_moves (b : Board) : List Coordinate :=
  (sortStable moveLe
    ((get_distinct_moves b).map
      (fun m => (m.1, m.2, get_distinct_moves_after_move b m.1.x m.1.y)))).map
    (fun t => t.1)

end Board

deriving instance DecidableEq for Except

namespace Board

/-- One step of the flood fill's reachability: `n` is one of the neighbor
candidates of `m` and the board holds `color` at `n`. -/
def colorStep (b : Board) (color : Point) (m n : Coordinate) : Prop :=
  n ∈ neighborsOf m.x m.y ∧ b.data.get? (get_index n.x n.y) = some color

/-- Reachability along `colorStep`: the maximal same-color 4-connected
group of the spec, relative to a start cell. -/
def Reach (b : Board) (color : Point) (s c : Coordinate) : Prop :=
  Relation.ReflTransGen (colorStep b color) s c

/-- All coordinates whose components are below 63; every coordinate the
flood fill can insert on a board of at most 63 cells lies here. -/
def gridUniv : Finset Coordinate :=
  (Finset.range 63 ×ˢ Finset.range 63).image (fun p => ⟨p.1, p.2⟩)

end Board

namespace Board

/-- The gravity invariant of the spec: in every column no empty cell sits
below (at a higher `y` than) a non-empty cell; equivalently, an empty
cell forces every cell above it in its column to be empty. -/
def gravityInvariant (data : List Point) : Prop :=
  ∀ x, x < 7 → ∀ y2, y2 < 9 → ∀ y1, y1 < y2 →
    data.getD (get_index x y2) Point.Empty = Point.Empty →
    data.getD (get_index x y1) Point.Empty = Point.Empty

/-- The Bool form of "this cell survives gravity" used to state what the
compaction loop computes. -/
def notEmptyCell (p : Point) : Bool := p ≠ Point.Empty

instance (d : List Point) : Decidable (gravityInvariant d) := by
  unfold gravityInvariant
  infer_instance

/-- Modelled from the spec: the spec's description of
`get_distinct_moves` "marks every group member visited so each group
yields exactly one entry".  Identical to `get_distinct_moves` except that
the whole group (not just the scanned cell) goes into the visited set;
used to express the spec-intended "number of distinct groups". -/
def spec_distinct_moves (b : Board) : List (Coordinate × Nat) :=
  (scanCoords.foldl
    (fun (acc : List (Coordinate × Nat) × List Coordinate) c =>
      if b.data.getD (get_index c.x c.y) Point.Empty = Point.Empty then acc
      else if c ∈ acc.2 then acc
      else
        let g := get_group b c.x c.y
        (acc.1 ++ [(c, g.length)], g ++ acc.2))
    ([], [])).1

/-- Modelled from the spec: the one-ply lookahead value the spec ascribes
to a move, "the number of distinct groups remaining after simulating that
move on a private clone". -/
def lookahead_group_count (b : Board) (x y : Nat) : Nat :=
  match make_move b x y with
  | some (Except.ok _, b2) => (spec_distinct_moves b2).length
  | _ => 0

/-- Concrete board: one two-cell orange group at `(0,7)`, `(0,8)`;
everything else empty. -/
def boardTwoCells : Board :=
  { data := List.replicate 7 Point.Empty ++ [Point.Orange, Point.Orange] ++
      List.replicate 54 Point.Empty,
    moves := [] }

/-- Concrete board with three groups: a two-cell orange group at
`(2,7)`, `(3,7)`, a green singleton at `(2,8)`, and a six-cell pink group
at `(3,8)` and `(4,4)`–`(4,8)`.  Popping the pink group drops both orange
cells and splits them apart (3 groups remain), while popping the orange
pair leaves the green singleton and the pink group (2 groups remain). -/
def boardLookahead : Board :=
  { data := List.replicate 18 Point.Empty
      ++ (List.replicate 7 Point.Empty ++ [Point.Orange, Point.Green])
      ++ (List.replicate 7 Point.Empty ++ [Point.Orange, Point.Pink])
      ++ (List.replicate 4 Point.Empty ++ List.replicate 5 Point.Pink)
      ++ List.replicate 18 Point.Empty,
    moves := [] }

/-- Concrete board whose only non-empty cell is linear index 9, i.e. cell
`(1, 0)` — which is also the cell the out-of-grid coordinate `(0, 9)`
aliases to under `get_index`. -/
def boardAliased : Board :=
  { data := List.replicate 9 Point.Empty ++ [Point.Orange] ++
      List.replicate 53 Point.Empty,
    moves := [] }

/-- Concrete board: all 63 cells orange (one single group). -/
def boardAllOrange : Board :=
  { data := List.replicate 63 Point.Orange, moves := [] }

end Board

set_option maxRecDepth 100000

namespace Board

theorem recurse_neighbors_zero (b : Board) (color : Point)
    (stack group : List Coordinate) :
    recurse_neighbors b color 0 stack group = group := rfl

theorem recurse_neighbors_nil (b : Board) (color : Point) (f : Nat)
    (group : List Coordinate) :
    recurse_neighbors b color (f + 1) [] group = group := rfl

theorem recurse_neighbors_cons (b : Board) (color : Point) (f : Nat)
    (n : Coordinate) (rest group : List Coordinate) :
    recurse_neighbors b color (f + 1) (n :: rest) group =
      if b.data.get? (get_index n.x n.y) = some color then
        if n ∈ group then
          recurse_neighbors b color f rest group
        else
          recurse_neighbors b color f (neighborsOf n.x n.y ++ rest) (n :: group)
      else
        recurse_neighbors b color f rest group := rfl

theorem mem_gridUniv {c : Coordinate} : c ∈ gridUniv ↔ c.x < 63 ∧ c.y < 63 := by
  constructor
  · intro h
    rcases Finset.mem_image.1 h with ⟨p, hp, rfl⟩
    rcases Finset.mem_product.1 hp with ⟨h1, h2⟩
    exact ⟨Finset.mem_range.1 h1, Finset.mem_range.1 h2⟩
  · intro ⟨h1, h2⟩
    exact Finset.mem_image.2 ⟨(c.x, c.y), Finset.mem_product.2
      ⟨Finset.mem_range.2 h1, Finset.mem_range.2 h2⟩, rfl⟩

theorem card_gridUniv_le : gridUniv.card ≤ 3969 := by
  refine Finset.card_image_le.trans ?_
  simp [Finset.card_product]

theorem neighborsOf_length_le (x y : Nat) : (neighborsOf x y).length ≤ 4 := by
  unfold neighborsOf
  split_ifs <;> simp

theorem missing_cons_lt (group : List Coordinate) (n : Coordinate)
    (hnu : n ∈ gridUniv) (hng : n ∉ group) :
    (gridUniv \ (n :: group).toFinset).card <
      (gridUniv \ group.toFinset).card := by
  have h1 : (n :: group).toFinset = insert n group.toFinset := by
    simp [List.toFinset_cons]
  rw [h1, Finset.sdiff_insert]
  refine Finset.card_erase_lt_of_mem ?_
  exact Finset.mem_sdiff.2 ⟨hnu, by simp [hng]⟩

theorem recurse_neighbors_mono (b : Board) (color : Point) :
    ∀ fuel (stack group : List Coordinate), ∀ c ∈ group,
      c ∈ recurse_neighbors b color fuel stack group := by
  intro fuel
  induction fuel with
  | zero => intro stack group c hc; rw [recurse_neighbors_zero]; exact hc
  | succ f ih =>
    intro stack group c hc
    cases stack with
    | nil => rw [recurse_neighbors_nil]; exact hc
    | cons n rest =>
      rw [recurse_neighbors_cons]
      split
      · split
        · exact ih _ _ _ hc
        · exact ih _ _ _ (List.mem_cons_of_mem _ hc)
      · exact ih _ _ _ hc

theorem recurse_neighbors_sound (b : Board) (color : Point) :
    ∀ fuel (stack group : List Coordinate),
      ∀ c ∈ recurse_neighbors b color fuel stack group,
        c ∈ group ∨ ∃ n ∈ stack,
          b.data.get? (get_index n.x n.y) = some color ∧ Reach b color n c := by
  intro fuel
  induction fuel with
  | zero => intro stack group c hc; rw [recurse_neighbors_zero] at hc; exact Or.inl hc
  | succ f ih =>
    intro stack group c hc
    cases stack with
    | nil => rw [recurse_neighbors_nil] at hc; exact Or.inl hc
    | cons n rest =>
      rw [recurse_neighbors_cons] at hc
      split_ifs at hc with h1 h2
      · rcases ih _ _ _ hc with h | ⟨m, hm, hmc, hr⟩
        · exact Or.inl h
        · exact Or.inr ⟨m, List.mem_cons_of_mem _ hm, hmc, hr⟩
      · rcases ih _ _ _ hc with h | ⟨m, hm, hmc, hr⟩
        · rcases List.mem_cons.1 h with rfl | hg
          · exact Or.inr ⟨c, List.mem_cons_self _ _, h1, Relation.ReflTransGen.refl⟩
          · exact Or.inl hg
        · rcases List.mem_append.1 hm with hmn | hmr
          · exact Or.inr ⟨n, List.mem_cons_self _ _, h1,
              Relation.ReflTransGen.head ⟨hmn, hmc⟩ hr⟩
          · exact Or.inr ⟨m, List.mem_cons_of_mem _ hmr, hmc, hr⟩
      · rcases ih _ _ _ hc with h | ⟨m, hm, hmc, hr⟩
        · exact Or.inl h
        · exact Or.inr ⟨m, List.mem_cons_of_mem _ hm, hmc, hr⟩

theorem recurse_neighbors_closed (b : Board) (color : Point)
    (hlen : b.data.length ≤ 63) :
    ∀ fuel (stack group : List Coordinate),
      5 * (gridUniv \ group.toFinset).card + stack.length ≤ fuel →
      (∀ a ∈ group, ∀ m ∈ neighborsOf a.x a.y,
        b.data.get? (get_index m.x m.y) = some color → m ∈ group ∨ m ∈ stack) →
      ∀ a ∈ recurse_neighbors b color fuel stack group,
        ∀ m ∈ neighborsOf a.x a.y,
          b.data.get? (get_index m.x m.y) = some color →
            m ∈ recurse_neighbors b color fuel stack group := by
  intro fuel
  induction fuel with
  | zero =>
    intro stack group hb hInv
    have hstack : stack = [] := by
      cases stack with
      | nil => rfl
      | cons _ _ => simp at hb
    subst hstack
    intro a ha m hm hcol
    rw [recurse_neighbors_zero] at ha ⊢
    rcases hInv a ha m hm hcol with h | h
    · exact h
    · cases h
  | succ f ih =>
    intro stack group hb hInv
    cases stack with
    | nil =>
      intro a ha m hm hcol
      rw [recurse_neighbors_nil] at ha ⊢
      rcases hInv a ha m hm hcol with h | h
      · exact h
      · cases h
    | cons n rest =>
      rw [recurse_neighbors_cons]
      simp only [List.length_cons] at hb
      split_ifs with h1 h2
      · -- the popped candidate is already in the group: skip it
        refine ih rest group (by omega) ?_
        intro a ha m hm hcol
        rcases hInv a ha m hm hcol with h | h
        · exact Or.inl h
        · rcases List.mem_cons.1 h with rfl | h'
          · exact Or.inl h2
          · exact Or.inr h'
      · -- insert the popped candidate and queue its neighbors
        have hnu : n ∈ gridUniv := by
          have hlt := List.get?_eq_some.1 h1
          have hidx : get_index n.x n.y < 63 := lt_of_lt_of_le hlt.1 hlen
          unfold get_index at hidx
          exact mem_gridUniv.2 ⟨by omega, by omega⟩
        have hcard := missing_cons_lt group n hnu h2
        have hn4 := neighborsOf_length_le n.x n.y
        refine ih (neighborsOf n.x n.y ++ rest) (n :: group)
          (by simp only [List.length_append]; omega) ?_
        intro a ha m hm hcol
        rcases List.mem_cons.1 ha with rfl | ha'
        · exact Or.inr (List.mem_append_left _ hm)
        · rcases hInv a ha' m hm hcol with h | h
          · exact Or.inl (List.mem_cons_of_mem _ h)
          · rcases List.mem_cons.1 h with rfl | h'
            · exact Or.inl (List.mem_cons_self _ _)
            · exact Or.inr (List.mem_append_right _ h')
      · -- the popped candidate does not hold the color: skip it
        refine ih rest group (by omega) ?_
        intro a ha m hm hcol
        rcases hInv a ha m hm hcol with h | h
        · exact Or.inl h
        · rcases List.mem_cons.1 h with rfl | h'
          · exact absurd hcol h1
          · exact Or.inr h'

theorem mem_get_group (b : Board) (hlen : b.data.length ≤ 63) (x y : Nat)
    (c : Coordinate) :
    c ∈ get_group b x y ↔
      Reach b (b.data.getD (get_index x y) Point.Empty) ⟨x, y⟩ c := by
  constructor
  · intro hc
    rcases recurse_neighbors_sound b _ 20000 _ _ c hc with h | ⟨n, hn, hcol, hr⟩
    · simp at h
      subst h
      exact Relation.ReflTransGen.refl
    · exact Relation.ReflTransGen.head ⟨hn, hcol⟩ hr
  · intro hr
    have hseed : (⟨x, y⟩ : Coordinate) ∈ get_group b x y :=
      recurse_neighbors_mono b _ 20000 _ _ _ (List.mem_singleton_self _)
    have hbound : 5 * (gridUniv \ ([(⟨x, y⟩ : Coordinate)]).toFinset).card +
        (neighborsOf x y).length ≤ 20000 := by
      have h1 : (gridUniv \ ([(⟨x, y⟩ : Coordinate)]).toFinset).card ≤ 3969 :=
        (Finset.card_le_card (Finset.sdiff_subset)).trans card_gridUniv_le
      have h2 := neighborsOf_length_le x y
      omega
    have hclosed := recurse_neighbors_closed b
      (b.data.getD (get_index x y) Point.Empty) hlen 20000 (neighborsOf x y)
      [⟨x, y⟩] hbound ?_
    · induction hr with
      | refl => exact hseed
      | tail _ hstep ihr => exact hclosed _ ihr _ hstep.1 hstep.2
    · intro a ha m hm hcol
      rcases List.mem_singleton.1 ha with rfl
      exact Or.inr hm

end Board

namespace Board

theorem notEmptyCell_empty : notEmptyCell Point.Empty = false := rfl

theorem notEmptyCell_true {p : Point} (h : p ≠ Point.Empty) :
    notEmptyCell p = true := by
  simp [notEmptyCell, h]

theorem gravityFill_spec : ∀ (n : Nat) (c : List Point), n ≤ c.length →
    gravityFill c n = List.replicate n Point.Empty ++ c.drop n := by
  intro n
  induction n with
  | zero => intro c h; simp [gravityFill]
  | succ m ih =>
    intro c h
    rw [show gravityFill c (m + 1) = gravityFill (c.set m Point.Empty) m from rfl]
    rw [ih _ (by simp; omega)]
    have hdrop : (c.set m Point.Empty).drop m = Point.Empty :: c.drop (m + 1) := by
      rw [List.drop_set, if_neg (lt_irrefl m), Nat.sub_self]
      rw [List.drop_eq_getElem_cons (show m < c.length by omega)]
      rfl
    rw [hdrop, List.replicate_succ']
    simp

theorem gravityPass_spec (col : List Point) (hcol : col.length = 9) :
    ∀ i, i ≤ 9 → ∀ (c : List Point) (ins : Int), c.length = 9 →
      (∀ j, j < i → c.getD j Point.Empty = col.getD j Point.Empty) →
      c.drop (9 - ((col.drop i).filter notEmptyCell).length) =
        (col.drop i).filter notEmptyCell →
      ins = 8 - (((col.drop i).filter notEmptyCell).length : Int) →
      (gravityPass c ins i).1.length = 9 ∧
      (gravityPass c ins i).1.drop (9 - (col.filter notEmptyCell).length) =
        col.filter notEmptyCell ∧
      (gravityPass c ins i).2 = 8 - ((col.filter notEmptyCell).length : Int) := by
  intro i
  induction i with
  | zero =>
    intro _ c ins hc9 _ hsuf hins
    simp only [List.drop_zero] at hsuf hins
    exact ⟨hc9, hsuf, hins⟩
  | succ i ih =>
    intro hle c ins hc9 hpre hsuf hins
    have hi : i < 9 := by omega
    have hkb : ((col.drop (i + 1)).filter notEmptyCell).length ≤ 8 - i := by
      have h1 := List.length_filter_le notEmptyCell (col.drop (i + 1))
      have h2 : (col.drop (i + 1)).length = 9 - (i + 1) := by
        rw [List.length_drop, hcol]
      omega
    have hread : c.getD i Point.Empty = col.getD i Point.Empty :=
      hpre i (by omega)
    have hdropc : col.drop i = col.getD i Point.Empty :: col.drop (i + 1) := by
      rw [List.getD_eq_getElem col _ (show i < col.length by omega)]
      exact List.drop_eq_getElem_cons (show i < col.length by omega)
    rw [show gravityPass c ins (i + 1) =
      if c.getD i Point.Empty = Point.Empty then gravityPass c ins i
      else gravityPass (c.set ins.toNat (c.getD i Point.Empty)) (ins - 1) i
      from rfl]
    by_cases hE : col.getD i Point.Empty = Point.Empty
    · rw [if_pos (by rw [hread]; exact hE)]
      have hfe : (col.drop i).filter notEmptyCell =
          (col.drop (i + 1)).filter notEmptyCell := by
        rw [hdropc, List.filter_cons, hE]
        simp [notEmptyCell_empty]
      refine ih (by omega) c ins hc9 (fun j hj => hpre j (by omega)) ?_ ?_
      · rw [hfe]; exact hsuf
      · rw [hfe]; exact hins
    · rw [if_neg (by rw [hread]; exact hE)]
      have hfi : (col.drop i).filter notEmptyCell =
          col.getD i Point.Empty :: (col.drop (i + 1)).filter notEmptyCell := by
        rw [hdropc, List.filter_cons, notEmptyCell_true hE]
        simp
      have hki : ((col.drop i).filter notEmptyCell).length =
          ((col.drop (i + 1)).filter notEmptyCell).length + 1 := by
        rw [hfi]; simp
      have hins' : ins.toNat = 8 - ((col.drop (i + 1)).filter notEmptyCell).length := by
        rw [hins]; omega
      refine ih (by omega) _ _ (by simp [hc9]) ?_ ?_ ?_
      · intro j hj
        rw [List.getD_eq_getElem?_getD, List.getElem?_set_ne (by omega),
          ← List.getD_eq_getElem?_getD]
        exact hpre j (by omega)
      · rw [hki]
        have h9 : 9 - (((col.drop (i + 1)).filter notEmptyCell).length + 1) =
            8 - ((col.drop (i + 1)).filter notEmptyCell).length := by omega
        rw [h9, List.drop_set, if_neg (by omega), hins', Nat.sub_self]
        rw [List.drop_eq_getElem_cons
          (show 8 - ((col.drop (i + 1)).filter notEmptyCell).length < c.length by omega)]
        have h10 : 8 - ((col.drop (i + 1)).filter notEmptyCell).length + 1 =
            9 - ((col.drop (i + 1)).filter notEmptyCell).length := by omega
        rw [show ∀ (a v : Point) (t : List Point), (a :: t).set 0 v = v :: t
          from fun a v t => rfl]
        rw [h10, hsuf, hfi, hread]
      · rw [hki, hins]
        push_cast
        omega

theorem gravityColumn_spec (col : List Point) (hcol : col.length = 9) :
    gravityColumn col =
      List.replicate (9 - (col.filter notEmptyCell).length) Point.Empty ++
        col.filter notEmptyCell := by
  have hnil : col.drop 9 = [] := List.drop_eq_nil_of_le (by omega)
  have h := gravityPass_spec col hcol 9 (le_refl 9) col 8 hcol
    (fun j _ => rfl) (by simp [hnil]) (by simp [hnil])
  obtain ⟨hlen, hsuf, hins⟩ := h
  have hK : (col.filter notEmptyCell).length ≤ 9 := by
    have := List.length_filter_le notEmptyCell col
    omega
  show gravityFill (gravityPass col 8 9).1 ((gravityPass col 8 9).2 + 1).toNat = _
  rw [hins]
  have htn : ((8 : Int) - ((col.filter notEmptyCell).length : Int) + 1).toNat =
      9 - (col.filter notEmptyCell).length := by omega
  rw [htn, gravityFill_spec _ _ (by omega), hsuf]

end Board

namespace Board

theorem gravityColumn_length (col : List Point) (hcol : col.length = 9) :
    (gravityColumn col).length = 9 := by
  rw [gravityColumn_spec col hcol]
  have := List.length_filter_le notEmptyCell col
  simp
  omega

theorem filter_eq_self_of_notEmpty {s : List Point}
    (hs : ∀ p ∈ s, p ≠ Point.Empty) : s.filter notEmptyCell = s :=
  List.filter_eq_self.2 (fun p hp => notEmptyCell_true (hs p hp))

/-- A column in which every empty cell forces the cells above it to be
empty consists of an empty prefix followed by its non-empty cells. -/
theorem column_shape : ∀ col : List Point,
    (∀ y2, y2 < col.length → ∀ y1, y1 < y2 →
      col.getD y2 Point.Empty = Point.Empty →
      col.getD y1 Point.Empty = Point.Empty) →
    col = List.replicate (col.length - (col.filter notEmptyCell).length)
        Point.Empty ++ col.filter notEmptyCell := by
  intro col
  induction col with
  | nil => intro _; rfl
  | cons a t ih =>
    intro hmono
    by_cases hE : a = Point.Empty
    · subst hE
      have ht := ih (fun y2 h2 y1 h12 he =>
        hmono (y2 + 1) (by simpa using Nat.succ_lt_succ h2) (y1 + 1)
          (Nat.succ_lt_succ h12) he)
      rw [List.filter_cons, notEmptyCell_empty]
      simp only [Bool.false_eq_true, if_false]
      have hlen : (Point.Empty :: t).length - (t.filter notEmptyCell).length =
          (t.length - (t.filter notEmptyCell).length) + 1 := by
        have := List.length_filter_le notEmptyCell t
        simp
        omega
      rw [hlen, List.replicate_succ]
      exact congrArg (Point.Empty :: ·) ht
    · have hall : ∀ p ∈ t, p ≠ Point.Empty := by
        intro p hp hpe
        rcases List.mem_iff_getElem.1 hp with ⟨j, hj, hje⟩
        have h0 : (a :: t).getD (j + 1) Point.Empty = Point.Empty := by
          rw [List.getD_eq_getElem _ _ (by simpa using Nat.succ_lt_succ hj)]
          rw [List.getElem_cons_succ]
          rw [hje]
          exact hpe
        have := hmono (j + 1) (by simpa using Nat.succ_lt_succ hj) 0
          (Nat.succ_pos j) h0
        simp [List.getD] at this
        exact hE this
      have hfa : (a :: t).filter notEmptyCell = a :: t := by
        rw [List.filter_cons, notEmptyCell_true hE,
          filter_eq_self_of_notEmpty hall]
        simp
      rw [hfa]
      simp

theorem gravityColumn_fixed (col : List Point) (hcol : col.length = 9)
    (hmono : ∀ y2, y2 < col.length → ∀ y1, y1 < y2 →
      col.getD y2 Point.Empty = Point.Empty →
      col.getD y1 Point.Empty = Point.Empty) :
    gravityColumn col = col := by
  rw [gravityColumn_spec col hcol]
  conv_rhs => rw [column_shape col hmono]
  rw [hcol]

/-- Length of a column-blocked `flatMap` where every block has length 9. -/
theorem flatMap_blocks_length (f : Nat → List Point) :
    ∀ n, (∀ j, j < n → (f j).length = 9) →
      ((List.range n).flatMap f).length = 9 * n := by
  intro n
  induction n with
  | zero => intro _; simp
  | succ m ih =>
    intro hf
    rw [List.range_succ, List.flatMap_append]
    simp only [List.length_append, ih (fun j hj => hf j (by omega))]
    simp [hf m (by omega)]
    ring

theorem flatMap_blocks_getElem? (f : Nat → List Point) :
    ∀ n, (∀ j, j < n → (f j).length = 9) → ∀ x y, x < n → y < 9 →
      ((List.range n).flatMap f)[x * 9 + y]? = (f x)[y]? := by
  intro n
  induction n with
  | zero => intro _ x y hx; omega
  | succ m ih =>
    intro hf x y hx hy
    rw [List.range_succ, List.flatMap_append]
    by_cases hxm : x < m
    · rw [List.getElem?_append_left
        (by rw [flatMap_blocks_length f m (fun j hj => hf j (by omega))]; omega)]
      exact ih (fun j hj => hf j (by omega)) x y hxm hy
    · have hxe : x = m := by omega
      subst hxe
      rw [List.getElem?_append_right
        (by rw [flatMap_blocks_length f x (fun j hj => hf j (by omega))]; omega)]
      rw [flatMap_blocks_length f x (fun j hj => hf j (by omega))]
      simp only [List.flatMap_cons, List.flatMap_nil, List.append_nil]
      congr 1
      omega

theorem slice_length (d : List Point) (hd : d.length = 63) (x : Nat)
    (hx : x < 7) : ((d.drop (x * 9)).take 9).length = 9 := by
  simp
  omega

theorem apply_gravity_length (d : List Point) (hd : d.length = 63) :
    (apply_gravity d).length = 63 := by
  unfold apply_gravity
  rw [flatMap_blocks_length _ 7
    (fun j hj => gravityColumn_length _ (slice_length d hd j hj))]

theorem apply_gravity_getElem? (d : List Point) (hd : d.length = 63)
    (x y : Nat) (hx : x < 7) (hy : y < 9) :
    (apply_gravity d)[x * 9 + y]? =
      (gravityColumn ((d.drop (x * 9)).take 9))[y]? := by
  unfold apply_gravity
  exact flatMap_blocks_getElem? _ 7
    (fun j hj => gravityColumn_length _ (slice_length d hd j hj)) x y hx hy

theorem slice_getElem? (d : List Point) (x y : Nat) (hy : y < 9) :
    ((d.drop (x * 9)).take 9)[y]? = d[x * 9 + y]? := by
  rw [List.getElem?_take, if_pos hy, List.getElem?_drop]

/-- A column of the form "empties, then only non-empty cells" has the
monotone empty-above property. -/
theorem repl_filter_getD_mono (k : Nat) (s : List Point)
    (hs : ∀ p ∈ s, p ≠ Point.Empty) (y1 y2 : Nat) (h12 : y1 < y2)
    (hy2len : y2 < (List.replicate k Point.Empty ++ s).length)
    (h2 : (List.replicate k Point.Empty ++ s).getD y2 Point.Empty =
      Point.Empty) :
    (List.replicate k Point.Empty ++ s).getD y1 Point.Empty =
      Point.Empty := by
  have hy2k : y2 < k := by
    by_contra hge
    push_neg at hge
    rw [List.getD_append_right _ _ _ _ (by simpa using hge),
      List.length_replicate] at h2
    have hlt : y2 - k < s.length := by
      simp only [List.length_append, List.length_replicate] at hy2len
      omega
    rw [List.getD_eq_getElem s Point.Empty hlt] at h2
    exact hs _ (h2 ▸ List.getElem_mem hlt) rfl
  rw [List.getD_append _ _ _ _ (by simpa using lt_trans h12 hy2k)]
  rw [List.getD_eq_getElem _ _ (by simpa using lt_trans h12 hy2k)]
  simp

theorem mem_filter_notEmpty {s : List Point} {p : Point}
    (hp : p ∈ s.filter notEmptyCell) : p ≠ Point.Empty := by
  have := List.of_mem_filter hp
  simpa [notEmptyCell] using this

theorem apply_gravity_invariant (d : List Point) (hd : d.length = 63) :
    gravityInvariant (apply_gravity d) := by
  intro x hx y2 hy2 y1 h12 he
  have hy1 : y1 < 9 := by omega
  unfold get_index at he ⊢
  rw [List.getD_eq_getElem?_getD, apply_gravity_getElem? d hd x y2 hx hy2,
    ← List.getD_eq_getElem?_getD,
    gravityColumn_spec _ (slice_length d hd x hx)] at he
  rw [List.getD_eq_getElem?_getD, apply_gravity_getElem? d hd x y1 hx hy1,
    ← List.getD_eq_getElem?_getD,
    gravityColumn_spec _ (slice_length d hd x hx)]
  refine repl_filter_getD_mono _ _ (fun p hp => mem_filter_notEmpty hp)
    y1 y2 h12 ?_ he
  have h1 := List.length_filter_le notEmptyCell ((d.drop (x * 9)).take 9)
  have h2 := slice_length d hd x hx
  simp only [List.length_append, List.length_replicate]
  omega

end Board

namespace Board

theorem flatMap_slices_take (d : List Point) :
    ∀ n, 9 * n ≤ d.length →
      (List.range n).flatMap (fun x => (d.drop (x * 9)).take 9) =
        d.take (9 * n) := by
  intro n
  induction n with
  | zero => intro _; simp
  | succ m ih =>
    intro h
    rw [List.range_succ, List.flatMap_append, ih (by omega)]
    simp only [List.flatMap_cons, List.flatMap_nil, List.append_nil]
    rw [show 9 * (m + 1) = 9 * m + 9 by ring, List.take_add]
    rw [show m * 9 = 9 * m by ring]

theorem flatMap_slices_eq (d : List Point) (hd : d.length = 63) :
    (List.range 7).flatMap (fun x => (d.drop (x * 9)).take 9) = d := by
  rw [flatMap_slices_take d 7 (by omega)]
  exact List.take_of_length_le (by omega)

theorem apply_gravity_of_invariant (d : List Point) (hd : d.length = 63)
    (hinv : gravityInvariant d) : apply_gravity d = d := by
  unfold apply_gravity
  have hcong : ∀ x ∈ List.range 7,
      gravityColumn ((d.drop (x * 9)).take 9) = (d.drop (x * 9)).take 9 := by
    intro x hx
    have hx7 : x < 7 := List.mem_range.1 hx
    refine gravityColumn_fixed _ (slice_length d hd x hx7) ?_
    intro y2 hy2 y1 h12 he
    rw [slice_length d hd x hx7] at hy2
    have hy1 : y1 < 9 := by omega
    rw [List.getD_eq_getElem?_getD, slice_getElem? d x y2 hy2,
      ← List.getD_eq_getElem?_getD] at he
    rw [List.getD_eq_getElem?_getD, slice_getElem? d x y1 hy1,
      ← List.getD_eq_getElem?_getD]
    exact hinv x hx7 y2 hy2 y1 h12 (by unfold get_index; exact he)
  rw [List.flatMap_congr hcong]
  exact flatMap_slices_eq d hd

theorem apply_gravity_idem (d : List Point) (hd : d.length = 63) :
    apply_gravity (apply_gravity d) = apply_gravity d :=
  apply_gravity_of_invariant _ (apply_gravity_length d hd)
    (apply_gravity_invariant d hd)

end Board

namespace Board

theorem eraseGroup_length : ∀ (group : List Coordinate) (d : List Point),
    (eraseGroup d group).length = d.length := by
  intro group
  induction group with
  | nil => intro d; rfl
  | cons c g ih =>
    intro d
    show (eraseGroup (d.set (get_index c.x c.y) Point.Empty) g).length = _
    rw [ih]
    exact List.length_set d _ _

theorem eraseGroup_getElem? : ∀ (group : List Coordinate) (d : List Point)
    (i : Nat),
    (eraseGroup d group)[i]? =
      if ∃ c ∈ group, get_index c.x c.y = i then
        (if i < d.length then some Point.Empty else none)
      else d[i]? := by
  intro group
  induction group with
  | nil => intro d i; simp [eraseGroup]
  | cons c g ih =>
    intro d i
    show (eraseGroup (d.set (get_index c.x c.y) Point.Empty) g)[i]? = _
    rw [ih, List.length_set]
    by_cases hg : ∃ a ∈ g, get_index a.x a.y = i
    · rw [if_pos hg]
      have hcons : ∃ a ∈ c :: g, get_index a.x a.y = i := by
        obtain ⟨a, hag, hai⟩ := hg
        exact ⟨a, List.mem_cons_of_mem _ hag, hai⟩
      rw [if_pos hcons]
    · rw [if_neg hg]
      by_cases hc : get_index c.x c.y = i
      · have hcons : ∃ a ∈ c :: g, get_index a.x a.y = i :=
          ⟨c, List.mem_cons_self _ _, hc⟩
        rw [if_pos hcons, hc, List.getElem?_set]
        simp
      · have hcons : ¬ ∃ a ∈ c :: g, get_index a.x a.y = i := by
          rintro ⟨a, ha, hai⟩
          rcases List.mem_cons.1 ha with rfl | hag
          · exact hc hai
          · exact hg ⟨a, hag, hai⟩
        rw [List.getElem?_set_ne hc, if_neg hcons]

theorem make_move_of_ok (b : Board) (x y : Nat) (b' : Board)
    (h : make_move b x y = some (Except.ok (), b')) :
    b.data.get? (get_index x y) ≠ some Point.Empty ∧
    b'.data = apply_gravity (eraseGroup b.data (get_group b x y)) ∧
    b'.moves = b.moves ++ [⟨x, y⟩] := by
  unfold make_move at h
  split at h
  · exact Option.noConfusion h
  · next p hp =>
    split_ifs at h with hpe
    · simp at h
    · simp only [Option.some.injEq, Prod.mk.injEq] at h
      obtain ⟨_, hb⟩ := h
      refine ⟨?_, by rw [← hb], by rw [← hb]⟩
      rw [hp]
      intro he
      exact hpe (by injection he)

end Board

namespace Board

theorem mem_if_singleton {α : Type} {c : Prop} [Decidable c] {a n : α} :
    (n ∈ if c then [a] else []) ↔ c ∧ n = a := by
  split_ifs with h <;> simp [h]

theorem mem_neighborsOf {n : Coordinate} {x y : Nat} :
    n ∈ neighborsOf x y ↔
      (0 < x ∧ n = ⟨x - 1, y⟩) ∨ (x < 6 ∧ n = ⟨x + 1, y⟩) ∨
      (0 < y ∧ n = ⟨x, y - 1⟩) ∨ (y < 8 ∧ n = ⟨x, y + 1⟩) := by
  simp [neighborsOf, List.mem_append, mem_if_singleton]

theorem get?_eq_getElem? (d : List Point) (n : Nat) : d.get? n = d[n]? :=
  List.get?_eq_getElem? d n

theorem twoCol_get? (A B : Point) (d : List Point)
    (hdata : d = List.replicate 9 A ++ List.replicate 54 B)
    {x y : Nat} (hx : x < 7) (hy : y < 9) :
    d.get? (get_index x y) = some (if x = 0 then A else B) := by
  rw [get?_eq_getElem?, hdata]
  unfold get_index
  by_cases hx0 : x = 0
  · subst hx0
    rw [List.getElem?_append_left (by simp; omega)]
    rw [if_pos rfl, List.getElem?_replicate, if_pos (by omega)]
  · rw [List.getElem?_append_right (by simp; omega)]
    rw [if_neg hx0, List.getElem?_replicate, List.length_replicate,
      if_pos (by omega)]

theorem twoCol_length (A B : Point) (d : List Point)
    (hdata : d = List.replicate 9 A ++ List.replicate 54 B) :
    d.length = 63 := by
  rw [hdata]
  simp

theorem twoCol_step_col0 (A B : Point) (b : Board)
    (hdata : b.data = List.replicate 9 A ++ List.replicate 54 B)
    (hAB : A ≠ B) {m n : Coordinate} (hm : m.x = 0 ∧ m.y < 9)
    (hstep : colorStep b A m n) : n.x = 0 ∧ n.y < 9 := by
  obtain ⟨hmem, hcol⟩ := hstep
  rw [hm.1] at hmem
  rcases mem_neighborsOf.1 hmem with ⟨h, rfl⟩ | ⟨h, rfl⟩ | ⟨h, rfl⟩ | ⟨h, rfl⟩
  · omega
  · exfalso
    rw [twoCol_get? A B b.data hdata (by dsimp only; omega) (by dsimp only; omega)] at hcol
    simp at hcol
    exact hAB hcol.symm
  · exact ⟨rfl, by dsimp only; omega⟩
  · exact ⟨rfl, by dsimp only; omega⟩

theorem twoCol_reach_col0_closed (A B : Point) (b : Board)
    (hdata : b.data = List.replicate 9 A ++ List.replicate 54 B)
    (hAB : A ≠ B) (y : Nat) (hy : y < 9) {c : Coordinate}
    (hr : Reach b A ⟨0, y⟩ c) : c.x = 0 ∧ c.y < 9 := by
  induction hr with
  | refl => exact ⟨rfl, hy⟩
  | tail _ hstep ih => exact twoCol_step_col0 A B b hdata hAB ih hstep

theorem twoCol_step_col0_up (A B : Point) (b : Board)
    (hdata : b.data = List.replicate 9 A ++ List.replicate 54 B)
    (y : Nat) (hy : y < 8) : colorStep b A ⟨0, y⟩ ⟨0, y + 1⟩ := by
  refine ⟨mem_neighborsOf.2 (Or.inr (Or.inr (Or.inr ⟨hy, rfl⟩))), ?_⟩
  rw [twoCol_get? A B b.data hdata (by dsimp only; omega) (by dsimp only; omega)]
  simp

theorem twoCol_step_col0_down (A B : Point) (b : Board)
    (hdata : b.data = List.replicate 9 A ++ List.replicate 54 B)
    (y : Nat) (hy : 0 < y) (hy9 : y < 9) :
    colorStep b A ⟨0, y⟩ ⟨0, y - 1⟩ := by
  refine ⟨mem_neighborsOf.2 (Or.inr (Or.inr (Or.inl ⟨hy, rfl⟩))), ?_⟩
  rw [twoCol_get? A B b.data hdata (by dsimp only; omega) (by dsimp only; omega)]
  simp

theorem twoCol_reach_col0_up (A B : Point) (b : Board)
    (hdata : b.data = List.replicate 9 A ++ List.replicate 54 B) :
    ∀ d y, y + d < 9 → Reach b A ⟨0, y⟩ ⟨0, y + d⟩ := by
  intro d
  induction d with
  | zero => intro y _; exact Relation.ReflTransGen.refl
  | succ e ih =>
    intro y h
    exact Relation.ReflTransGen.tail (ih y (by omega))
      (twoCol_step_col0_up A B b hdata (y + e) (by omega))

theorem twoCol_reach_col0_down (A B : Point) (b : Board)
    (hdata : b.data = List.replicate 9 A ++ List.replicate 54 B) :
    ∀ d y, d ≤ y → y < 9 → Reach b A ⟨0, y⟩ ⟨0, y - d⟩ := by
  intro d
  induction d with
  | zero => intro y _ _; exact Relation.ReflTransGen.refl
  | succ e ih =>
    intro y h h9
    have hstep := twoCol_step_col0_down A B b hdata (y - e) (by omega) (by omega)
    have hd : y - e - 1 = y - (e + 1) := by omega
    rw [hd] at hstep
    exact Relation.ReflTransGen.tail (ih y (by omega) h9) hstep

theorem twoCol_reach_col0 (A B : Point) (b : Board)
    (hdata : b.data = List.replicate 9 A ++ List.replicate 54 B)
    (y y' : Nat) (hy : y < 9) (hy' : y' < 9) :
    Reach b A ⟨0, y⟩ ⟨0, y'⟩ := by
  rcases Nat.le_total y y' with h | h
  · have hr := twoCol_reach_col0_up A B b hdata (y' - y) y (by omega)
    rw [show y + (y' - y) = y' by omega] at hr
    exact hr
  · have hr := twoCol_reach_col0_down A B b hdata (y - y') y (by omega) hy
    rw [show y - (y - y') = y' by omega] at hr
    exact hr

end Board

namespace Board

theorem twoCol_step_rest (A B : Point) (b : Board)
    (hdata : b.data = List.replicate 9 A ++ List.replicate 54 B)
    (hAB : A ≠ B) {m n : Coordinate}
    (hm : 1 ≤ m.x ∧ m.x < 7 ∧ m.y < 9) (hstep : colorStep b B m n) :
    1 ≤ n.x ∧ n.x < 7 ∧ n.y < 9 := by
  obtain ⟨hmem, hcol⟩ := hstep
  rcases mem_neighborsOf.1 hmem with ⟨h, rfl⟩ | ⟨h, rfl⟩ | ⟨h, rfl⟩ | ⟨h, rfl⟩
  · by_cases h1 : m.x - 1 = 0
    · exfalso
      rw [show (⟨m.x - 1, m.y⟩ : Coordinate) = ⟨0, m.y⟩ by rw [h1]] at hcol
      rw [twoCol_get? A B b.data hdata (by dsimp only; omega)
        (by dsimp only; exact hm.2.2)] at hcol
      simp at hcol
      exact hAB hcol
    · exact ⟨by dsimp only; omega, by dsimp only; omega, by dsimp only; exact hm.2.2⟩
  · exact ⟨by dsimp only; omega, by dsimp only; omega, by dsimp only; exact hm.2.2⟩
  · exact ⟨by dsimp only; exact hm.1, by dsimp only; exact hm.2.1, by dsimp only; omega⟩
  · exact ⟨by dsimp only; exact hm.1, by dsimp only; exact hm.2.1, by dsimp only; omega⟩

theorem twoCol_reach_rest_closed (A B : Point) (b : Board)
    (hdata : b.data = List.replicate 9 A ++ List.replicate 54 B)
    (hAB : A ≠ B) (x y : Nat) (hx1 : 1 ≤ x) (hx : x < 7) (hy : y < 9)
    {c : Coordinate} (hr : Reach b B ⟨x, y⟩ c) :
    1 ≤ c.x ∧ c.x < 7 ∧ c.y < 9 := by
  induction hr with
  | refl => exact ⟨hx1, hx, hy⟩
  | tail _ hstep ih => exact twoCol_step_rest A B b hdata hAB ih hstep

/-- Vertical reachability inside one column whose cells all hold `c`. -/
theorem vert_reach (b : Board) (c : Point) (x : Nat)
    (hcol : ∀ y, y < 9 → b.data.get? (get_index x y) = some c) :
    ∀ y y', y < 9 → y' < 9 → Reach b c ⟨x, y⟩ ⟨x, y'⟩ := by
  have hup : ∀ d y, y + d < 9 → Reach b c ⟨x, y⟩ ⟨x, y + d⟩ := by
    intro d
    induction d with
    | zero => intro y _; exact Relation.ReflTransGen.refl
    | succ e ih =>
      intro y h
      refine Relation.ReflTransGen.tail (ih y (by omega)) ?_
      exact ⟨mem_neighborsOf.2 (Or.inr (Or.inr (Or.inr ⟨by dsimp only; omega, rfl⟩))),
        hcol (y + e + 1) (by omega)⟩
  have hdown : ∀ d y, d ≤ y → y < 9 → Reach b c ⟨x, y⟩ ⟨x, y - d⟩ := by
    intro d
    induction d with
    | zero => intro y _ _; exact Relation.ReflTransGen.refl
    | succ e ih =>
      intro y h h9
      refine Relation.ReflTransGen.tail (ih y (by omega) h9) ?_
      refine ⟨mem_neighborsOf.2 (Or.inr (Or.inr (Or.inl ⟨by dsimp only; omega, ?_⟩))), ?_⟩
      · rw [show y - e - 1 = y - (e + 1) by omega]
      · exact hcol (y - (e + 1)) (by omega)
  intro y y' hy hy'
  rcases Nat.le_total y y' with h | h
  · have hr := hup (y' - y) y (by omega)
    rw [show y + (y' - y) = y' by omega] at hr
    exact hr
  · have hr := hdown (y - y') y (by omega) hy
    rw [show y - (y - y') = y' by omega] at hr
    exact hr

/-- Horizontal reachability along one row, inside columns 1–6, when every
cell of the row in those columns holds `c`. -/
theorem horiz_reach_rest (b : Board) (c : Point) (y : Nat)
    (hrow : ∀ x, 1 ≤ x → x < 7 → b.data.get? (get_index x y) = some c) :
    ∀ x x', 1 ≤ x → x < 7 → 1 ≤ x' → x' < 7 → Reach b c ⟨x, y⟩ ⟨x', y⟩ := by
  have hup : ∀ d x, 1 ≤ x → x + d < 7 → Reach b c ⟨x, y⟩ ⟨x + d, y⟩ := by
    intro d
    induction d with
    | zero => intro x _ _; exact Relation.ReflTransGen.refl
    | succ e ih =>
      intro x hx1 h
      refine Relation.ReflTransGen.tail (ih x hx1 (by omega)) ?_
      exact ⟨mem_neighborsOf.2 (Or.inr (Or.inl ⟨by dsimp only; omega, rfl⟩)),
        hrow (x + e + 1) (by omega) (by omega)⟩
  have hdown : ∀ d x, d + 1 ≤ x → x < 7 → Reach b c ⟨x, y⟩ ⟨x - d, y⟩ := by
    intro d
    induction d with
    | zero => intro x _ _; exact Relation.ReflTransGen.refl
    | succ e ih =>
      intro x h h7
      refine Relation.ReflTransGen.tail (ih x (by omega) h7) ?_
      refine ⟨mem_neighborsOf.2 (Or.inl ⟨by dsimp only; omega, ?_⟩), ?_⟩
      · rw [show x - e - 1 = x - (e + 1) by omega]
      · exact hrow (x - (e + 1)) (by omega) (by omega)
  intro x x' hx1 hx hx1' hx'
  rcases Nat.le_total x x' with h | h
  · have hr := hup (x' - x) x hx1 (by omega)
    rw [show x + (x' - x) = x' by omega] at hr
    exact hr
  · have hr := hdown (x - x') x (by omega) hx
    rw [show x - (x - x') = x' by omega] at hr
    exact hr

theorem twoCol_getD (A B : Point) (d : List Point)
    (hdata : d = List.replicate 9 A ++ List.replicate 54 B)
    {x y : Nat} (hx : x < 7) (hy : y < 9) :
    d.getD (get_index x y) Point.Empty = (if x = 0 then A else B) := by
  rw [List.getD_eq_getElem?_getD, ← get?_eq_getElem?,
    twoCol_get? A B d hdata hx hy]
  rfl

theorem twoCol_group_col0 (A B : Point) (b : Board)
    (hdata : b.data = List.replicate 9 A ++ List.replicate 54 B)
    (hAB : A ≠ B) (y : Nat) (hy : y < 9) (c : Coordinate) :
    c ∈ get_group b 0 y ↔ c.x = 0 ∧ c.y < 9 := by
  rw [mem_get_group b (le_of_eq (twoCol_length A B b.data hdata)) 0 y c,
    twoCol_getD A B b.data hdata (by omega) hy, if_pos rfl]
  constructor
  · exact twoCol_reach_col0_closed A B b hdata hAB y hy
  · intro ⟨hcx, hcy⟩
    have hr := twoCol_reach_col0 A B b hdata y c.y hy hcy
    have hc2 : c = ⟨0, c.y⟩ := by
      cases c
      simp_all
    rw [hc2]
    exact hr

theorem twoCol_group_rest (A B : Point) (b : Board)
    (hdata : b.data = List.replicate 9 A ++ List.replicate 54 B)
    (hAB : A ≠ B) (x y : Nat) (hx1 : 1 ≤ x) (hx : x < 7) (hy : y < 9)
    (c : Coordinate) :
    c ∈ get_group b x y ↔ 1 ≤ c.x ∧ c.x < 7 ∧ c.y < 9 := by
  rw [mem_get_group b (le_of_eq (twoCol_length A B b.data hdata)) x y c,
    twoCol_getD A B b.data hdata hx hy, if_neg (by omega)]
  constructor
  · exact twoCol_reach_rest_closed A B b hdata hAB x y hx1 hx hy
  · intro ⟨hcx1, hcx, hcy⟩
    have hvert : Reach b B ⟨x, y⟩ ⟨x, c.y⟩ :=
      vert_reach b B x
        (fun y' hy' => by
          rw [twoCol_get? A B b.data hdata hx hy', if_neg (by omega)])
        y c.y hy hcy
    have hhoriz : Reach b B ⟨x, c.y⟩ ⟨c.x, c.y⟩ :=
      horiz_reach_rest b B c.y
        (fun x' hx1' hx' => by
          rw [twoCol_get? A B b.data hdata hx' hcy, if_neg (by omega)])
        x c.x hx1 hx hcx1 hcx
    have hc2 : c = ⟨c.x, c.y⟩ := by cases c; rfl
    rw [hc2]
    exact Relation.ReflTransGen.trans hvert hhoriz

end Board

namespace Board

theorem make_move_eq_none (b : Board) (x y : Nat)
    (hp : b.data.get? (get_index x y) = none) : make_move b x y = none := by
  unfold make_move
  rw [hp]

theorem make_move_eq_error (b : Board) (x y : Nat)
    (hp : b.data.get? (get_index x y) = some Point.Empty) :
    make_move b x y = some (Except.error BoardError.InvalidMove, b) := by
  unfold make_move
  rw [hp]
  rfl

theorem make_move_eq_of_some (b : Board) (x y : Nat) (p : Point)
    (hp : b.data.get? (get_index x y) = some p) (hne : p ≠ Point.Empty) :
    make_move b x y = some (Except.ok (),
      { data := apply_gravity (eraseGroup b.data (get_group b x y)),
        moves := b.moves ++ [⟨x, y⟩] }) := by
  unfold make_move
  rw [hp]
  change (if p = Point.Empty then some (Except.error BoardError.InvalidMove, b)
    else some (Except.ok (),
      { data := apply_gravity (eraseGroup b.data (get_group b x y)),
        moves := b.moves ++ [⟨x, y⟩] })) = _
  rw [if_neg hne]

theorem twoCol_erase_col0 (A B : Point) (b : Board)
    (hdata : b.data = List.replicate 9 A ++ List.replicate 54 B)
    (hAB : A ≠ B) (y : Nat) (hy : y < 9) :
    eraseGroup b.data (get_group b 0 y) =
      List.replicate 9 Point.Empty ++ List.replicate 54 B := by
  apply List.ext_getElem?
  intro i
  rw [eraseGroup_getElem?]
  by_cases hi : i < 9
  · rw [if_pos ⟨⟨0, i⟩, (twoCol_group_col0 A B b hdata hAB y hy ⟨0, i⟩).2
      ⟨rfl, hi⟩, by unfold get_index; dsimp only; omega⟩]
    rw [if_pos (by rw [twoCol_length A B b.data hdata]; omega)]
    rw [List.getElem?_append_left (by simp; omega), List.getElem?_replicate,
      if_pos hi]
  · rw [if_neg ?_]
    · rw [hdata]
      by_cases hi63 : i < 63
      · rw [List.getElem?_append_right (by simp; omega),
          List.getElem?_append_right (by simp; omega)]
        simp
      · rw [List.getElem?_eq_none (by simp; omega),
          List.getElem?_eq_none (by simp; omega)]
    · rintro ⟨c, hc, hci⟩
      rw [twoCol_group_col0 A B b hdata hAB y hy c] at hc
      unfold get_index at hci
      omega

theorem twoCol_erased_invariant (B : Point) (hB : B ≠ Point.Empty) :
    gravityInvariant (List.replicate 9 Point.Empty ++ List.replicate 54 B) := by
  intro x hx y2 hy2 y1 h12 he
  by_cases hx0 : x = 0
  · subst hx0
    rw [twoCol_getD Point.Empty B _ rfl (by omega) (by omega), if_pos rfl]
  · exfalso
    rw [twoCol_getD Point.Empty B _ rfl hx hy2, if_neg hx0] at he
    exact hB he

end Board

namespace Board

theorem pointDiscriminant_injective : Function.Injective pointDiscriminant := by
  intro p q h
  cases p <;> cases q <;> simp_all [pointDiscriminant]

theorem sum_utf8_of_single : ∀ s : List Char,
    (∀ c ∈ s, Char.utf8Size c = 1) → (s.map Char.utf8Size).sum = s.length := by
  intro s
  induction s with
  | nil => intro _; rfl
  | cons c t ih =>
    intro hone
    rw [List.map_cons, List.sum_cons, hone c (List.mem_cons_self c t),
      ih (fun a ha => hone a (List.mem_cons_of_mem c ha)), List.length_cons]
    omega

end Board

open Board

/-- Claim C1 (code bug): on the board whose only non-empty cells are the
two-cell orange group at `(0,7)`, `(0,8)`, `get_distinct_moves` returns
one entry per *cell* — two entries for this single maximal group, because
the code only inserts the scanned cell into `visited` and never the other
group members — while the spec-modelled enumeration that marks every
group member visited returns exactly one entry for the group. -/
theorem C1_get_distinct_moves_per_cell :
    get_distinct_moves boardTwoCells = [(⟨0, 7⟩, 2), (⟨0, 8⟩, 2)] ∧
    spec_distinct_moves boardTwoCells = [(⟨0, 7⟩, 2)] := by decide

/-- Claim C2 (counterexample): the out-of-grid coordinate `(0, 9)` (its
`y` is outside the 7×9 grid) is not rejected: on the board whose only
non-empty cell is linear index 9, `make_move(0, 9)` aliases that cell and
returns success, not `Error(InvalidMove)`. -/
theorem C2_counterexample :
    (make_move boardAliased 0 9).map Prod.fst = some (Except.ok ()) := by
  decide

/-- Claim C2 (amended): `make_move(x, y)` returns `Error(InvalidMove)`
exactly when the cell at linear index `x*9 + y` exists in the array and
is empty (that check precedes all other work); when that index is
outside the array the Rust code panics on the initial read (modelled as
`none`) instead of returning an error; and for in-grid coordinates on
the 63-cell board a non-empty cell always yields success.  Out-of-grid
coordinates are never range-checked: one whose linear index is in range
aliases the cell at that index, and its move can return
`Error(InvalidMove)` (aliased empty cell), succeed (see the
counterexample), or panic inside the flood fill when a neighbor index
leaves the array (e.g. `make_move(5, 10)` reads `data[64]` at
board.rs:150), which is why the success conjunct is stated for the
in-grid domain only. -/
theorem C2_make_move_error_iff (b : Board) (x y : Nat) :
    ((make_move b x y).map Prod.fst =
        some (Except.error BoardError.InvalidMove) ↔
      b.data.get? (get_index x y) = some Point.Empty) ∧
    (b.data.get? (get_index x y) = none → make_move b x y = none) ∧
    (b.data.length = 63 → x < 7 → y < 9 →
      ∀ p, b.data.get? (get_index x y) = some p → p ≠ Point.Empty →
        (make_move b x y).map Prod.fst = some (Except.ok ())) := by
  refine ⟨⟨?_, fun h => by rw [make_move_eq_error b x y h]; rfl⟩,
    make_move_eq_none b x y,
    fun _ _ _ p hp hne => by rw [make_move_eq_of_some b x y p hp hne]; rfl⟩
  intro h
  rcases hg : b.data.get? (get_index x y) with _ | p
  · rw [make_move_eq_none b x y hg] at h
    exact Option.noConfusion h
  · by_cases hp : p = Point.Empty
    · rw [hp]
    · rw [make_move_eq_of_some b x y p hg hp] at h
      simp at h

theorem C2_make_move_error_iff_witness :
    (make_move boardAllOrange 0 0).map Prod.fst = some (Except.ok ()) :=
  (C2_make_move_error_iff boardAllOrange 0 0).2.2 (by decide) (by decide)
    (by decide) Point.Orange (by decide) (by decide)

/-- Claim C3 (counterexample): `Board::new` checks the UTF-8 byte count
of the input (`s.len()`), not its symbol count: the 63-symbol input of
62 'o' and one 'é' (a two-byte character, 64 bytes in total) is rejected
with the invalid-length error although the claim requires it to succeed,
and the 63-byte input of 61 'o' and one 'é' (62 symbols) succeeds with a
board of only 62 cells although the claim requires every successfully
constructed board to have 63. -/
theorem C3_counterexample :
    (List.replicate 62 'o' ++ ['é']).length = 63 ∧
    new (List.replicate 62 'o' ++ ['é']) =
      Except.error BoardError.InvalidBoardStringLength ∧
    (List.replicate 61 'o' ++ ['é']).length = 62 ∧
    new (List.replicate 61 'o' ++ ['é']) =
      Except.ok (Board.mk (List.replicate 61 Point.Orange ++ [Point.Empty])
        []) ∧
    (List.replicate 61 Point.Orange ++ [Point.Empty]).length = 62 := by
  decide

/-- Claim C3 (amended): construction fails with the invalid-length error
exactly when the UTF-8 byte length of the input — the sum of the byte
sizes of its symbols, Rust's `s.len()` — is not 63; otherwise it
succeeds with an empty move history and one cell per input symbol, each
cell the image of its symbol under the table ('o' orange, 'p' pink,
'g' green, 'b' blue, anything else empty — the table is
`char_to_point`); when every symbol is a single-byte character the board
has exactly 63 cells. -/
theorem C3_construction (s : List Char) :
    (new s = Except.error BoardError.InvalidBoardStringLength ↔
      (s.map Char.utf8Size).sum ≠ 63) ∧
    ((s.map Char.utf8Size).sum = 63 → ∃ b, new s = Except.ok b ∧
      b.data.length = s.length ∧ b.moves = [] ∧
      (∀ i, i < s.length → b.data[i]? = (s[i]?).map char_to_point) ∧
      ((∀ c ∈ s, Char.utf8Size c = 1) → b.data.length = 63)) := by
  constructor
  · constructor
    · intro h hlen
      unfold new at h
      rw [if_neg (by omega)] at h
      exact Except.noConfusion h
    · intro hne
      unfold new
      rw [if_pos hne]
  · intro hlen
    refine ⟨⟨s.map char_to_point, []⟩, ?_, by simp, rfl, ?_, ?_⟩
    · unfold new
      rw [if_neg (by omega)]
    · intro i _
      exact List.getElem?_map char_to_point s i
    · intro hone
      have hsum := sum_utf8_of_single s hone
      simp only [List.length_map]
      omega

theorem C3_construction_witness :
    ∃ b, new (List.replicate 63 'o') = Except.ok b ∧ b.moves = [] := by
  obtain ⟨b, h1, _, h3, _, _⟩ :=
    (C3_construction (List.replicate 63 'o')).2 (by decide)
  exact ⟨b, h1, h3⟩

/-- Claim C4: every successful `make_move` on a 63-cell board
re-establishes the gravity invariant (no empty cell below a non-empty
cell in any column) and appends `(x, y)` as the last element of the move
history. -/
theorem C4_make_move_gravity (b : Board) (x y : Nat) (b' : Board)
    (hlen : b.data.length = 63)
    (h : make_move b x y = some (Except.ok (), b')) :
    gravityInvariant b'.data ∧ b'.moves = b.moves ++ [⟨x, y⟩] := by
  obtain ⟨_, hdata, hmoves⟩ := make_move_of_ok b x y b' h
  refine ⟨?_, hmoves⟩
  rw [hdata]
  exact apply_gravity_invariant _ (by rw [eraseGroup_length]; exact hlen)

theorem C4_make_move_gravity_witness :
    gravityInvariant (Board.mk (List.replicate 63 Point.Empty)
      [⟨0, 0⟩]).data ∧
    (Board.mk (List.replicate 63 Point.Empty) [⟨0, 0⟩]).moves =
      boardAllOrange.moves ++ [⟨0, 0⟩] :=
  C4_make_move_gravity boardAllOrange 0 0 _ (by decide) (by decide)

/-- Claim C5: on a board whose column 0 is uniformly color `A` and whose
columns 1–6 are uniformly a different color `B`, a move on any cell of
column 0 succeeds, empties column 0, and leaves columns 1–6 exactly as
they were (nothing moves sideways into the emptied column). -/
theorem C5_two_colored_move (A B : Point) (b : Board)
    (hdata : b.data = List.replicate 9 A ++ List.replicate 54 B)
    (hA : A ≠ Point.Empty) (hB : B ≠ Point.Empty) (hAB : A ≠ B)
    (y : Nat) (hy : y < 9) :
    make_move b 0 y = some (Except.ok (),
      { data := List.replicate 9 Point.Empty ++ List.replicate 54 B,
        moves := b.moves ++ [⟨0, y⟩] }) := by
  have hget : b.data.get? (get_index 0 y) = some A := by
    rw [twoCol_get? A B b.data hdata (by omega) hy]
    rfl
  rw [make_move_eq_of_some b 0 y A hget hA,
    twoCol_erase_col0 A B b hdata hAB y hy,
    apply_gravity_of_invariant _ (twoCol_length Point.Empty B _ rfl)
      (twoCol_erased_invariant B hB)]

theorem C5_two_colored_move_witness :
    make_move
      ⟨List.replicate 9 Point.Orange ++ List.replicate 54 Point.Pink, []⟩
      0 4 =
    some (Except.ok (),
      { data := List.replicate 9 Point.Empty ++ List.replicate 54 Point.Pink,
        moves := ([] : List Coordinate) ++ [⟨0, 4⟩] }) :=
  C5_two_colored_move Point.Orange Point.Pink _ rfl (by decide) (by decide)
    (by decide) 4 (by decide)

/-- Claim C6: `apply_gravity` is idempotent on 63-cell boards: a board
that already satisfies the gravity invariant is left unchanged, and in
particular re-applying gravity after one application changes nothing. -/
theorem C6_gravity_idempotent (d : List Point) (hd : d.length = 63) :
    (gravityInvariant d → apply_gravity d = d) ∧
    apply_gravity (apply_gravity d) = apply_gravity d :=
  ⟨apply_gravity_of_invariant d hd, apply_gravity_idem d hd⟩

theorem C6_gravity_idempotent_witness :
    apply_gravity (List.replicate 63 Point.Orange) =
      List.replicate 63 Point.Orange :=
  (C6_gravity_idempotent _ (by decide)).1 (by decide)

/-- Claim C8: on a board whose column 0 is one color and whose columns
1–6 are uniformly a second color, `get_group` at a column-0 cell is
exactly the set of the 9 column-0 coordinates, and at a cell of columns
1–6 it is exactly the set of the 54 coordinates of columns 1–6. -/
theorem C8_two_colored_groups (A B : Point) (b : Board)
    (hdata : b.data = List.replicate 9 A ++ List.replicate 54 B)
    (hA : A ≠ Point.Empty) (hB : B ≠ Point.Empty) (hAB : A ≠ B)
    (x y : Nat) (hx : x < 7) (hy : y < 9) (c : Coordinate) :
    (x = 0 → (c ∈ get_group b x y ↔ c.x = 0 ∧ c.y < 9)) ∧
    (1 ≤ x → (c ∈ get_group b x y ↔ 1 ≤ c.x ∧ c.x < 7 ∧ c.y < 9)) := by
  constructor
  · intro hx0
    subst hx0
    exact twoCol_group_col0 A B b hdata hAB y hy c
  · intro hx1
    exact twoCol_group_rest A B b hdata hAB x y hx1 hx hy c

theorem C8_two_colored_groups_witness :
    ((⟨0, 5⟩ : Coordinate) ∈ get_group
      ⟨List.replicate 9 Point.Orange ++ List.replicate 54 Point.Pink, []⟩
      0 0) ∧
    ((⟨3, 5⟩ : Coordinate) ∈ get_group
      ⟨List.replicate 9 Point.Orange ++ List.replicate 54 Point.Pink, []⟩
      2 2) := by
  constructor
  · exact ((C8_two_colored_groups Point.Orange Point.Pink _ rfl (by decide)
      (by decide) (by decide) 0 0 (by decide) (by decide) ⟨0, 5⟩).1
      rfl).2 (by decide)
  · exact ((C8_two_colored_groups Point.Orange Point.Pink _ rfl (by decide)
      (by decide) (by decide) 2 2 (by decide) (by decide) ⟨3, 5⟩).2
      (by decide)).2 (by decide)

/-- Claim C7 (code bug): on `boardLookahead`, `get_prioritized_moves`
puts a pink-group cell `(3,8)` first even though popping the pink group
leaves 3 distinct groups, while the orange move `(2,7)` — which leaves
only 2 distinct groups — comes later: the list is not sorted ascending by
the number of distinct groups remaining, because the code's sort key
counts the per-cell entries of the buggy `get_distinct_moves`, i.e.
non-empty cells, rather than groups. -/
theorem C7_not_sorted_by_group_count :
    get_prioritized_moves boardLookahead =
      [⟨3, 8⟩, ⟨4, 4⟩, ⟨4, 5⟩, ⟨4, 6⟩, ⟨4, 7⟩, ⟨4, 8⟩,
        ⟨2, 7⟩, ⟨3, 7⟩, ⟨2, 8⟩] ∧
    lookahead_group_count boardLookahead 3 8 = 3 ∧
    lookahead_group_count boardLookahead 2 7 = 2 := by decide

/-- Claim C9: two boards have equal memo keys exactly when their cell
arrays are equal; in particular the memo key ignores the move history. -/
theorem C9_memo_key (b1 b2 : Board) :
    (get_memo_key b1 = get_memo_key b2 ↔ b1.data = b2.data) ∧
    (∀ ms : List Coordinate,
      get_memo_key { data := b1.data, moves := ms } = get_memo_key b1) := by
  refine ⟨⟨?_, ?_⟩, fun ms => rfl⟩
  · intro h
    exact List.map_injective_iff.2 pointDiscriminant_injective h
  · intro h
    unfold get_memo_key
    rw [h]

/-- Claim C10: when `make_move` returns `Error(InvalidMove)` (the
addressed in-range cell is empty), the board is unchanged: the Rust
function returns before any mutation, so the post-call cell array and
move history equal the pre-call ones. -/
theorem C10_invalid_move_unchanged (b : Board) (x y : Nat)
    (r : Except BoardError Unit) (b' : Board)
    (h : make_move b x y = some (r, b'))
    (hr : r = Except.error BoardError.InvalidMove) :
    b'.data = b.data ∧ b'.moves = b.moves := by
  subst hr
  rcases hg : b.data.get? (get_index x y) with _ | p
  · rw [make_move_eq_none b x y hg] at h
    exact Option.noConfusion h
  · by_cases hp : p = Point.Empty
    · subst hp
      rw [make_move_eq_error b x y hg] at h
      simp only [Option.some.injEq, Prod.mk.injEq] at h
      rw [← h.2]
      exact ⟨rfl, rfl⟩
    · rw [make_move_eq_of_some b x y p hg hp] at h
      simp at h

theorem C10_invalid_move_unchanged_witness :
    boardTwoCells.data = boardTwoCells.data ∧
    boardTwoCells.moves = boardTwoCells.moves :=
  C10_invalid_move_unchanged boardTwoCells 0 0
    (Except.error BoardError.InvalidMove) boardTwoCells (by decide) rfl
